import Mathlib

/-!
Verification development for the `better-npm` core
(`src/crates/better-core/src/lib.rs` and `src/crates/better-core/src/main.rs`).
Each section shallowly embeds one component of the Rust source; theorems at
the end settle the specification claims against the embedding.
-/

namespace BetterNpm

/-! ### Streaming JSON emitter (lib.rs 169-315)

`JsonWriter` is an append-only builder.  `stack_first` is the Rust `Vec<bool>`
with the top of the stack at the head of the list (Rust `push`/`last_mut`
work at the end of the vector; the list is kept reversed). -/

/-- Rust `char::is_control`: the Unicode `Cc` category, i.e. U+0000..U+001F
and U+007F..U+009F. -/
def rustIsControl (c : Char) : Bool :=
  c.toNat ≤ 0x1f || (0x7f ≤ c.toNat && c.toNat ≤ 0x9f)

/-- One lowercase hex digit, as produced by Rust `{:x}` formatting. -/
def hexDigitChar (n : Nat) : Char :=
  "0123456789abcdef".data.getD n '0'

/-- Four lowercase hex digits, as produced by Rust `{:04x}` for values
below `0x10000` (every control character is below `0x100`). -/
def hex4 (n : Nat) : List Char :=
  [hexDigitChar (n / 4096 % 16), hexDigitChar (n / 256 % 16),
   hexDigitChar (n / 16 % 16), hexDigitChar (n % 16)]

/-- The escape of a single character in `JsonWriter::raw_string_escaped`
(lib.rs 235-250): `"`, `\`, `\n`, `\r`, `\t` get two-character escapes,
any other control character becomes `\u{:04x}`, everything else is kept. -/
def escChar (c : Char) : List Char :=
  if c = '"' then ['\\', '"']
  else if c = '\\' then ['\\', '\\']
  else if c = '\n' then ['\\', 'n']
  else if c = '\r' then ['\\', 'r']
  else if c = '\t' then ['\\', 't']
  else if rustIsControl c then '\\' :: 'u' :: hex4 c.toNat
  else [c]

/-- `JsonWriter::raw_string_escaped` (lib.rs 235-250): the escaped body of a
string value, before the surrounding quotes are added. -/
def raw_string_escaped (s : String) : String :=
  String.mk (s.data.flatMap escChar)

/-- State of the streaming JSON writer (lib.rs 169-173). -/
structure JsonWriter where
  out : String
  stack_first : List Bool
  after_key : Bool

/-- `JsonWriter::push_comma_if_needed` (lib.rs 188-196). -/
def JsonWriter.push_comma_if_needed (w : JsonWriter) : JsonWriter :=
  match w.stack_first with
  | [] => w
  | top :: rest =>
    if top then { w with stack_first := false :: rest }
    else { w with out := w.out ++ "," }

/-- `JsonWriter::string` (lib.rs 252-256): quote, escaped body, quote. -/
def JsonWriter.string (w : JsonWriter) (s : String) : JsonWriter :=
  { w with out := w.out ++ "\"" ++ raw_string_escaped s ++ "\"" }

/-- `JsonWriter::value_string` (lib.rs 258-265). -/
def JsonWriter.value_string (w : JsonWriter) (s : String) : JsonWriter :=
  if w.after_key then JsonWriter.string { w with after_key := false } s
  else JsonWriter.string w.push_comma_if_needed s

/-- `JsonWriter::key` (lib.rs 228-233). -/
def JsonWriter.key (w : JsonWriter) (k : String) : JsonWriter :=
  let w1 := JsonWriter.string w.push_comma_if_needed k
  { w1 with out := w1.out ++ ":", after_key := true }

/-- Hexadecimal digit test over the lowercase alphabet used by `hexDigitChar`. -/
def isHexDig (c : Char) : Bool :=
  "0123456789abcdef".data.contains c

/-- A left-to-right well-formedness scan of a JSON string body: every quote,
backslash or control character must occur inside a recognized escape sequence
(`\"`, `\\`, `\n`, `\r`, `\t`, or `\u` followed by four hex digits). -/
def okEscaped : List Char → Bool
  | [] => true
  | c :: rest =>
    if c = '\\' then
      match rest with
      | 'u' :: h1 :: h2 :: h3 :: h4 :: rest' =>
        isHexDig h1 && isHexDig h2 && isHexDig h3 && isHexDig h4 && okEscaped rest'
      | e :: rest' =>
        (e == '"' || e == '\\' || e == 'n' || e == 'r' || e == 't') && okEscaped rest'
      | [] => false
    else
      !(c == '"' || rustIsControl c) && okEscaped rest

/-! ### Filesystem metadata and the tree analyzer (lib.rs 319-366, 1003-1131)

A file observation carries the metadata the analyzer reads from
`symlink_metadata`: logical length (`len`), allocated block count (`blocks`,
unix), and the `(dev, ino)` identity pair.  `analyze` walks the module tree
once; the per-file accounting in its loop body (lib.rs 1044-1086) is the
fold `analyze_file` over the sequence of file observations.  u64 arithmetic
in the source is saturating; below 2^64 it never saturates, so it is
modelled on `Nat`. -/

structure FileMeta where
  len : Nat
  blocks : Nat
  dev : Nat
  ino : Nat
deriving DecidableEq

/-- `identity_key` (lib.rs 319-326, unix variant): `(dev, ino)` with
`reliable = dev != 0 && ino != 0`. -/
def identity_key (f : FileMeta) : Nat × Nat × Bool :=
  (f.dev, f.ino, !(f.dev == 0) && !(f.ino == 0))

/-- `physical_len` (lib.rs 348-366, unix variant): `blocks * 512` when the
block count is positive, the logical length otherwise. -/
def physical_len (f : FileMeta) : Nat :=
  if f.blocks > 0 then f.blocks * 512 else f.len

/-- `ScanAgg` (lib.rs 65-73). -/
structure ScanAgg where
  logical : Nat
  physical : Nat
  shared : Nat
  file_count : Nat
  package_count : Nat
  approx : Bool
deriving DecidableEq

def ScanAgg.zero : ScanAgg := ⟨0, 0, 0, 0, 0, false⟩

/-- Walk state of `analyze`: the global set of seen inode identities
(`seen_global`, a `HashSet` modelled as a list) plus the running totals. -/
structure AnalyzeState where
  seen : List (Nat × Nat)
  agg : ScanAgg
deriving DecidableEq

/-- The totals accounting that `analyze` performs for one encountered file
(lib.rs 1044-1086): bump `file_count` and `logical`, mark `approx` when the
identity is unreliable, then attribute `physical_len` to `physical` on the
first sighting of the identity and to `shared` on every repeat;
a `(0, 0)` identity bypasses deduplication entirely. -/
def analyze_file (st : AnalyzeState) (f : FileMeta) : AnalyzeState :=
  let agg0 := { st.agg with
                file_count := st.agg.file_count + 1,
                logical := st.agg.logical + f.len }
  let phys := physical_len f
  let reliable := !(f.dev == 0) && !(f.ino == 0)
  let agg1 := if reliable then agg0 else { agg0 with approx := true }
  if f.dev == 0 && f.ino == 0 then
    { st with agg := { agg1 with approx := true, physical := agg1.physical + phys } }
  else if (f.dev, f.ino) ∈ st.seen then
    { st with agg := { agg1 with shared := agg1.shared + phys } }
  else
    { seen := (f.dev, f.ino) :: st.seen,
      agg := { agg1 with physical := agg1.physical + phys } }

/-- The analyzer's walk over a sequence of file observations. -/
def analyze_go (st : AnalyzeState) (files : List FileMeta) : AnalyzeState :=
  files.foldl analyze_file st

/-- The totals `analyze` reports for a module tree whose walk observes the
given files, starting from the empty `seen_global` set. -/
def analyze_files (files : List FileMeta) : ScanAgg :=
  (analyze_go ⟨[], ScanAgg.zero⟩ files).agg

/-- Pointwise sum of aggregates; `approx` is or-ed. -/
def addAgg (a b : ScanAgg) : ScanAgg :=
  ⟨a.logical + b.logical, a.physical + b.physical, a.shared + b.shared,
   a.file_count + b.file_count, a.package_count + b.package_count,
   a.approx || b.approx⟩

/-- Aggregate contribution of a single file, given the current seen set. -/
def fileDelta (seen : List (Nat × Nat)) (f : FileMeta) : ScanAgg :=
  (analyze_file ⟨seen, ScanAgg.zero⟩ f).agg

/-- Seen-set update caused by a single file. -/
def seenUpd (seen : List (Nat × Nat)) (f : FileMeta) : List (Nat × Nat) :=
  (analyze_file ⟨seen, ScanAgg.zero⟩ f).seen

/-- Totals reached from a given seen set, starting the aggregate at zero. -/
def goAgg (seen : List (Nat × Nat)) (files : List FileMeta) : ScanAgg :=
  (analyze_go ⟨seen, ScanAgg.zero⟩ files).agg

/-! ### Package-directory detection (lib.rs 430-465)

A relative path is modelled as its list of components.  `Path::file_name`
is the last component (`none` for the empty path), and `Path::parent`
drops the last component (`none` for the empty path), matching Rust's
behaviour on relative paths made of normal components. -/

/-- Rust `str::starts_with`, evaluated on the character lists. -/
def strStartsWith (s p : String) : Bool :=
  p.data.isPrefixOf s.data

/-- `Path::file_name` on a component list. -/
def fileNameOf (p : List String) : Option String :=
  p.getLast?

/-- `Path::parent` on a component list. -/
def parentOf : List String → Option (List String)
  | [] => none
  | xs => some xs.dropLast

/-- `is_scope_dir` (lib.rs 430-434): the directory's own name starts with `@`. -/
def is_scope_dir (dir : List String) : Bool :=
  match fileNameOf dir with
  | some n => strStartsWith n "@"
  | none => false

/-- `is_package_dir` (lib.rs 436-465). -/
def is_package_dir (dir : List String) : Bool :=
  match fileNameOf dir with
  | none => false
  | some name =>
    if name == ".bin" || strStartsWith name "." then false
    else
      match parentOf dir with
      | none => false
      | some parent =>
        if fileNameOf parent == some "node_modules" then !strStartsWith name "@"
        else
          match parentOf parent with
          | none => false
          | some grand =>
            fileNameOf grand == some "node_modules" && is_scope_dir parent

/-! ### Lockfile entry parsing (lib.rs 1546-1619)

String scanning is modelled on the character lists.  Rust's byte indices
are fused away: `str::find` followed by slicing past the needle is the
function `afterSub`, which returns the suffix just after the first
occurrence of the needle. -/

/-- The suffix of `hay` just after the first occurrence of `needle`
(Rust `find` + slice); `none` when the needle does not occur. -/
def afterSub (needle : List Char) : List Char → Option (List Char)
  | [] => if needle.isEmpty then some [] else none
  | c :: rest =>
    if needle.isPrefixOf (c :: rest) then some ((c :: rest).drop needle.length)
    else afterSub needle rest

/-- The escape map of `extract_json_field`'s value scanner (lib.rs 1583-1595). -/
def escMapEntry (e : Char) : Char :=
  if e = '"' then '"'
  else if e = '\\' then '\\'
  else if e = 'n' then '\n'
  else if e = 'r' then '\r'
  else if e = 't' then '\t'
  else if e = '/' then '/'
  else e

/-- The `while let` scan of `extract_json_field` (lib.rs 1577-1598): read
characters up to the closing quote, mapping escape sequences; running out
of input ends the scan. -/
def readJsonStr : List Char → List Char → List Char
  | [], acc => acc.reverse
  | '"' :: _, acc => acc.reverse
  | '\\' :: rest, acc =>
    match rest with
    | [] => acc.reverse
    | e :: rest' => readJsonStr rest' (escMapEntry e :: acc)
  | c :: rest, acc => readJsonStr rest (c :: acc)

/-- `extract_json_field` (lib.rs 1565-1605): find `"field"`, skip to the
colon, trim leading whitespace, require an opening quote, read the string
value; an empty result counts as missing. -/
def extract_json_field (json field : String) : Option String :=
  match afterSub ('"' :: field.data ++ ['"']) json.data with
  | none => none
  | some after =>
    match afterSub [':'] after with
    | none => none
    | some rest0 =>
      match rest0.dropWhile Char.isWhitespace with
      | '"' :: rest2 =>
        let out := readJsonStr rest2 []
        if out.isEmpty then none else some (String.mk out)
      | _ => none

/-- Rust `str::split('/')`, keeping empty pieces. -/
def splitSep (sep : Char) : List Char → List (List Char)
  | [] => [[]]
  | c :: rest =>
    if c = sep then [] :: splitSep sep rest
    else
      match splitSep sep rest with
      | g :: gs => (c :: g) :: gs
      | [] => [[c]]

/-- The body of `package_name_from_path` (lib.rs 1609-1618) after the split:
locate the **first** `node_modules` segment (`iter().position`), and name
the package from the following segment(s), joining two segments when the
first is scoped. -/
def package_name_from_parts (parts : List String) : String :=
  match parts.findIdx? (· = "node_modules") with
  | some idx =>
    if idx + 1 < parts.length then
      let first := parts.getD (idx + 1) ""
      if strStartsWith first "@" && decide (idx + 2 < parts.length) then
        first ++ "/" ++ parts.getD (idx + 2) ""
      else first
    else "unknown"
  | none => "unknown"

/-- `package_name_from_path` (lib.rs 1607-1619). -/
def package_name_from_path (rel_path : String) : String :=
  package_name_from_parts ((splitSep '/' rel_path.data).map String.mk)

/-- Modelled from the spec: "`name` is … derived from the install-path's
**last** segment(s), joining `@scope/name` when scoped" (§4.3).  Used only
to compare the code's derivation against the spec's words. -/
def nameFromPathLastSpec (rel_path : String) : String :=
  let parts : List String := (splitSep '/' rel_path.data).map String.mk
  match parts.reverse with
  | [] => "unknown"
  | [x] => x
  | x :: y :: _ => if strStartsWith y "@" then y ++ "/" ++ x else x

/-- `ResolvedPackage` (lib.rs 1397-1404). -/
structure ResolvedPackage where
  name : String
  version : String
  rel_path : String
  resolved_url : String
  integrity : String
deriving DecidableEq

/-- `parse_package_entry` (lib.rs 1546-1563): `name` falls back to
`package_name_from_path`; missing `version`, `resolved` or `integrity`
rejects the entry with a named error. -/
def parse_package_entry (rel_path entry_json : String) :
    Except String ResolvedPackage :=
  let name := (extract_json_field entry_json "name").getD (package_name_from_path rel_path)
  match extract_json_field entry_json "version" with
  | none => .error ("Missing version for " ++ rel_path)
  | some version =>
    match extract_json_field entry_json "resolved" with
    | none => .error ("Missing resolved URL for " ++ rel_path)
    | some resolved =>
      match extract_json_field entry_json "integrity" with
      | none => .error ("Missing integrity for " ++ rel_path)
      | some integrity =>
        .ok ⟨name, version, rel_path, resolved, integrity⟩

/-! ### Integrity codec (lib.rs 1645-1662)

`cas_key_from_integrity` splits the external form on the first `-` via
`splitn(2, '-')`, base64-decodes the tail with the `base64` crate's
`STANDARD` engine, and hex-formats the bytes.  The decoder below models the
crate (an external dependency, not part of `src/`): canonical padded
base64 — the alphabet `A-Za-z0-9+/`, length a multiple of four, `=`-padding
only in the final chunk, and zero trailing bits. -/

/-- Value of one character of the standard base64 alphabet. -/
def b64Val (c : Char) : Option Nat :=
  if 'A' ≤ c ∧ c ≤ 'Z' then some (c.toNat - 65)
  else if 'a' ≤ c ∧ c ≤ 'z' then some (c.toNat - 97 + 26)
  else if '0' ≤ c ∧ c ≤ '9' then some (c.toNat - 48 + 52)
  else if c = '+' then some 62
  else if c = '/' then some 63
  else none

/-- Modelled behaviour of `base64::engine::general_purpose::STANDARD`'s
`decode` on the character list, producing bytes as naturals below 256. -/
def b64Decode : List Char → Option (List Nat)
  | [] => some []
  | c1 :: c2 :: c3 :: c4 :: rest => do
    let v1 ← b64Val c1
    let v2 ← b64Val c2
    if c3 = '=' then
      if c4 = '=' ∧ rest = [] ∧ v2 % 16 = 0 then
        some [v1 * 4 + v2 / 16]
      else none
    else do
      let v3 ← b64Val c3
      if c4 = '=' then
        if rest = [] ∧ v3 % 4 = 0 then
          some [v1 * 4 + v2 / 16, v2 % 16 * 16 + v3 / 4]
        else none
      else do
        let v4 ← b64Val c4
        let tail ← b64Decode rest
        some ((v1 * 4 + v2 / 16) :: (v2 % 16 * 16 + v3 / 4) :: (v3 % 4 * 64 + v4) :: tail)
  | _ => none

/-- Two lowercase hex digits, Rust `{:02x}` for a byte. -/
def hexByte (n : Nat) : List Char :=
  [hexDigitChar (n / 16 % 16), hexDigitChar (n % 16)]

/-- Rust `splitn(2, sep)` on a character list, as the pair of parts when the
separator occurs; `none` models the one-part result. -/
def splitn2 (sep : Char) : List Char → Option (List Char × List Char)
  | [] => none
  | c :: rest =>
    if c = sep then some ([], rest)
    else (splitn2 sep rest).map (fun p => (c :: p.1, p.2))

/-- `cas_key_from_integrity` (lib.rs 1646-1662): split the external integrity
string on the first `-`, base64-decode the tail, return the algorithm and
the lowercase hex of the digest bytes. -/
def cas_key_from_integrity (integrity : String) : Option (String × String) :=
  match splitn2 '-' integrity.data with
  | none => none
  | some (algo, tail) =>
    match b64Decode tail with
    | none => none
    | some bytes => some (String.mk algo, String.mk (bytes.flatMap hexByte))

/-! ### Fetcher (lib.rs 1679-1812)

The store filesystem is abstracted to the facts `fetch_packages` tests and
creates: which `(algorithm, hex)` keys have a tarball, a `.verified`
sentinel, and an extraction marker, and which temp files exist in `tmp/`.
The network and the hash are an environment: `body` maps a URL to the
downloaded bytes and `sha512_hex` is the streaming hasher's lowercase hex.
`rayon`'s `try_for_each` over the package list is modelled sequentially;
the loop stops at the first error, which carries the filesystem state left
behind. -/

structure FetchEnv where
  body : String → List Nat
  sha512_hex : List Nat → String

/-- The store facts that `fetch_packages` reads and writes. -/
structure StoreState where
  tarballs : List (String × String)
  verified : List (String × String)
  extracted : List (String × String)
  tmp : List String
deriving DecidableEq

def StoreState.empty : StoreState := ⟨[], [], [], []⟩

/-- `FetchResult` counters (lib.rs 1621-1626, 1694-1696). -/
structure FetchCounters where
  packages_fetched : Nat
  packages_cached : Nat
  bytes_downloaded : Nat
deriving DecidableEq

def FetchCounters.zero : FetchCounters := ⟨0, 0, 0⟩

/-- Set-like insert on a key list. -/
def keyInsert {α : Type} [DecidableEq α] (x : α) (l : List α) : List α :=
  if x ∈ l then l else x :: l

/-- The extraction step of the per-package body (lib.rs 1784-1802), run
after the download-or-cached step when that step did not fail: write the
extraction marker when it is missing. -/
def after_download (key : String × String)
    (r : StoreState × FetchCounters × Option String) :
    StoreState × FetchCounters × Option String :=
  if r.2.2.isSome then r
  else if key ∉ r.1.extracted then
    ({ r.1 with extracted := keyInsert key r.1.extracted }, r.2.1, none)
  else r

/-- The per-package body of `fetch_packages` (lib.rs 1699-1805): parse the
integrity into a key; if the `.verified` sentinel and extraction marker both
exist, count cached and stop; otherwise download-and-verify when the tarball
or its sentinel is missing (an integrity mismatch aborts, leaving the temp
file), count cached otherwise, then extract when the marker is missing.
Returns the new store state, the new counters and an error message when the
package failed. -/
def fetch_one (env : FetchEnv) (pkg : ResolvedPackage) (st : StoreState)
    (c : FetchCounters) : StoreState × FetchCounters × Option String :=
  match cas_key_from_integrity pkg.integrity with
  | none => (st, c, some ("Invalid integrity format: " ++ pkg.integrity))
  | some (algo, hex) =>
    if (algo, hex) ∈ st.verified ∧ (algo, hex) ∈ st.extracted then
      (st, { c with packages_cached := c.packages_cached + 1 }, none)
    else
      after_download (algo, hex)
        (if (algo, hex) ∉ st.tarballs ∨ (algo, hex) ∉ st.verified then
          let bytes := env.body pkg.resolved_url
          let tmpName := hex ++ ".tgz.tmp"
          let st1 := { st with tmp := keyInsert tmpName st.tmp }
          let c1 := { c with bytes_downloaded := c.bytes_downloaded + bytes.length }
          let computed := env.sha512_hex bytes
          if algo = "sha512" ∧ computed ≠ hex then
            (st1, c1, some ("Integrity mismatch for " ++ pkg.name ++ ": expected "
              ++ hex ++ ", got " ++ computed))
          else
            ({ st1 with
                tmp := st1.tmp.erase tmpName,
                tarballs := keyInsert (algo, hex) st1.tarballs,
                verified := keyInsert (algo, hex) st1.verified },
             { c1 with packages_fetched := c1.packages_fetched + 1 }, none)
        else
          (st, { c with packages_cached := c.packages_cached + 1 }, none))

/-- `fetch_packages`' loop over the resolved packages (`rayon`'s
`try_for_each`, sequentially), stopping at the first failed package. -/
def fetch_loop (env : FetchEnv) : List ResolvedPackage → StoreState → FetchCounters →
    StoreState × FetchCounters × Option String
  | [], st, c => (st, c, none)
  | p :: rest, st, c =>
    let r := fetch_one env p st c
    if r.2.2.isSome then r else fetch_loop env rest r.1 r.2.1

/-! ### Ingester walk (lib.rs 1917-1956)

A directory's contents are a list of entries **in the order the operating
system's `read_dir` yields them** — `walk_dir` inside `ingest_to_file_cas`
iterates `fs::read_dir` directly, without the sorting of `stable_list_dir`
(lib.rs 342-346).  The walk records the relative path of every regular
file, skipping `node_modules` and the `.better_extracted` marker. -/

inductive FsEntry where
  | file (name : String)
  | dir (name : String) (entries : List FsEntry)

def FsEntry.name : FsEntry → String
  | .file n => n
  | .dir n _ => n

/-- `walk_dir` (lib.rs 1917-1954): collect the relative paths of the regular
files under a directory, in `read_dir` order, recursing into
subdirectories, skipping `node_modules` and `.better_extracted`. -/
def walk_dir (entries : List FsEntry) (relDirPre : String) : List String :=
  match entries with
  | [] => []
  | e :: rest =>
    if e.name == "node_modules" || e.name == ".better_extracted" then
      walk_dir rest relDirPre
    else
      let rel := if relDirPre.isEmpty then e.name else relDirPre ++ "/" ++ e.name
      (match e with
       | .dir _ sub => walk_dir sub rel
       | .file _ => [rel]) ++ walk_dir rest relDirPre

/-! ### Materializer (lib.rs 869-947, main.rs 542-563)

The scan phase turns a source tree into directory-creation targets and
file/symlink tasks; the link/copy phase runs the tasks.  The worker pool is
modelled sequentially — the effective job count steers only parallelism in
the source and never the per-task counter updates.  An environment records
which hardlink/copy/symlink operations succeed, by destination path, with
the hardlink failure message for fallback-cause classification. -/

inductive LinkStrategy where
  | auto | hardlink | copy
deriving DecidableEq

inductive MaterializeProfile where
  | auto | ioHeavy | smallFiles
deriving DecidableEq

/-- The profile adjustment of the worker count (lib.rs 929-934 and
main.rs 547-551, 556-560 — the same three formulas). -/
def effective_jobs (profile : MaterializeProfile) (jobs : Nat) : Nat :=
  match profile with
  | .auto => jobs
  | .ioHeavy => max (jobs * 2) 4
  | .smallFiles => max (jobs * 3) 8

inductive MatEntry where
  | file (name : String)
  | dir (name : String) (entries : List MatEntry)
  | symlink (name target : String)

def MatEntry.name : MatEntry → String
  | .file n => n
  | .dir n _ => n
  | .symlink n _ => n

/-- A scan-phase task (lib.rs 644-647). -/
inductive MaterializeTask where
  | file (src dst : String)
  | symlink (src dst target : String)

/-- `MaterializeStats` (lib.rs 76-86). -/
structure MaterializeStats where
  files : Nat
  files_linked : Nat
  files_copied : Nat
  link_fallback_copies : Nat
  directories : Nat
  symlinks : Nat
  fallback_eperm : Nat
  fallback_exdev : Nat
  fallback_other : Nat
deriving DecidableEq

def MaterializeStats.zero : MaterializeStats := ⟨0, 0, 0, 0, 0, 0, 0, 0, 0⟩

/-- Success/failure of the filesystem operations attempted by the link/copy
phase, by destination path. -/
structure MatEnv where
  linkErr : String → Option String
  copyOk : String → Bool
  symlinkOk : String → Bool

/-- The scan phase of `materialize_tree` (lib.rs 885-917): walk the source,
skipping `node_modules` and `.better_extracted`; record each directory's
destination and build file/symlink tasks. -/
def scan_tree_tasks (entries : List MatEntry) (src_dir dst_dir : String) :
    List String × List MaterializeTask :=
  match entries with
  | [] => ([], [])
  | e :: rest =>
    let restResult := scan_tree_tasks rest src_dir dst_dir
    if e.name == "node_modules" || e.name == ".better_extracted" then restResult
    else
      let src := src_dir ++ "/" ++ e.name
      let dst := dst_dir ++ "/" ++ e.name
      match e with
      | .dir _ sub =>
        let subResult := scan_tree_tasks sub src dst
        (dst :: (subResult.1 ++ restResult.1), subResult.2 ++ restResult.2)
      | .file _ => (restResult.1, .file src dst :: restResult.2)
      | .symlink _ target => (restResult.1, .symlink src dst target :: restResult.2)

/-- Substring test (Rust `str::contains`). -/
def strContains (s sub : String) : Bool :=
  (afterSub sub.data s.data).isSome

/-- One task of `run_materialize_tasks_parallel` (lib.rs 797-844): a file
task always bumps `files`, then links or copies according to the strategy,
classifying hardlink failures by message before the copy fallback; a
symlink task bumps `symlinks` on success. -/
def run_one_task (env : MatEnv) (strategy : LinkStrategy)
    (stats : MaterializeStats) : MaterializeTask → MaterializeStats × Option String
  | .file _src dst =>
    let stats := { stats with files := stats.files + 1 }
    match strategy with
    | .copy =>
      if env.copyOk dst then
        ({ stats with files_copied := stats.files_copied + 1 }, none)
      else (stats, some ("copy failed: " ++ dst))
    | .hardlink | .auto =>
      match env.linkErr dst with
      | none => ({ stats with files_linked := stats.files_linked + 1 }, none)
      | some link_err =>
        let stats :=
          if strContains link_err "EPERM" || strContains link_err "Operation not permitted" then
            { stats with fallback_eperm := stats.fallback_eperm + 1 }
          else if strContains link_err "EXDEV" || strContains link_err "cross-device" then
            { stats with fallback_exdev := stats.fallback_exdev + 1 }
          else
            { stats with fallback_other := stats.fallback_other + 1 }
        if env.copyOk dst then
          ({ stats with
              files_copied := stats.files_copied + 1,
              link_fallback_copies := stats.link_fallback_copies + 1 }, none)
        else (stats, some ("copy failed: " ++ dst))
  | .symlink _src dst _target =>
    if env.symlinkOk dst then
      ({ stats with symlinks := stats.symlinks + 1 }, none)
    else (stats, some ("symlink failed: " ++ dst))

/-- The link/copy phase (lib.rs 763-867), sequentially: the first failing
task aborts the remaining work.  The worker count (`_jobs`) bounds
parallelism only and never reaches a counter. -/
def run_materialize_tasks (env : MatEnv) (strategy : LinkStrategy) (_jobs : Nat) :
    List MaterializeTask → MaterializeStats → Except String MaterializeStats
  | [], stats => .ok stats
  | t :: rest, stats =>
    match run_one_task env strategy stats t with
    | (stats', none) => run_materialize_tasks env strategy _jobs rest stats'
    | (_, some e) => .error e

/-- `materialize_tree` (lib.rs 869-947): scan, count distinct directories
(`sort`/`dedup` then minus one for the root), run the tasks with the
profile-adjusted worker count. -/
def materialize_tree (env : MatEnv) (src : List MatEntry)
    (src_root dst_root : String) (strategy : LinkStrategy) (jobs : Nat)
    (profile : MaterializeProfile) : Except String MaterializeStats :=
  let scanned := scan_tree_tasks src src_root dst_root
  let directories := dst_root :: scanned.1
  let ej := effective_jobs profile jobs
  match run_materialize_tasks env strategy ej scanned.2 MaterializeStats.zero with
  | .error e => .error e
  | .ok stats => .ok { stats with directories := directories.eraseDups.length - 1 }

/-- The `materialize` command report (main.rs 542-563): `effectiveJobs` is
recomputed from the profile; on error the stats are the defaults. -/
structure MaterializeCmdOut where
  ok : Bool
  effectiveJobs : Nat
  stats : MaterializeStats
deriving DecidableEq

def materialize_cmd (env : MatEnv) (src : List MatEntry)
    (src_root dst_root : String) (strategy : LinkStrategy) (jobs : Nat)
    (profile : MaterializeProfile) : MaterializeCmdOut :=
  match materialize_tree env src src_root dst_root strategy jobs profile with
  | .ok stats => ⟨true, effective_jobs profile jobs, stats⟩
  | .error _ => ⟨false, effective_jobs profile jobs, MaterializeStats.zero⟩

/-! ### Concrete fixtures used by witnesses and counterexamples

`"sha512-qw=="` decodes to the single byte `0xab`, so its store key is
`("sha512", "ab")`. -/

def pkgA : ResolvedPackage :=
  ⟨"a", "1.0.0", "node_modules/a", "http://registry/a.tgz", "sha512-qw=="⟩

/-- A second entry of the same lockfile carrying the same integrity digest
at a nested install path - the shape npm emits for an unhoistable duplicate
of the same version. -/
def pkgA2 : ResolvedPackage :=
  ⟨"a", "1.0.0", "node_modules/b/node_modules/a", "http://registry/a.tgz", "sha512-qw=="⟩

/-- A network/hash environment in which every download hashes to `"ab"`. -/
def envGood : FetchEnv := ⟨fun _ => [171], fun _ => "ab"⟩

/-- A network/hash environment in which every download hashes to `"00"`. -/
def envBad : FetchEnv := ⟨fun _ => [1, 2], fun _ => "00"⟩

/-- Two observations of one hardlinked file: 4096 logical bytes, 8 blocks,
identity `(5, 6)`. -/
def filesDup : List FileMeta := [⟨4096, 8, 5, 6⟩, ⟨4096, 8, 5, 6⟩]

/-- Lexicographic (byte-wise) comparison of file names, the order
`stable_list_dir` sorts by. -/
def lexLe : List Char → List Char → Bool
  | [], _ => true
  | _ :: _, [] => false
  | a :: as, b :: bs =>
    if a.toNat < b.toNat then true
    else if b.toNat < a.toNat then false
    else lexLe as bs

/-- Whether a traversal's output is in lexicographic order. -/
def sortedNames : List String → Bool
  | [] => true
  | [_] => true
  | a :: b :: rest => lexLe a.data b.data && sortedNames (b :: rest)

/-- The name formed from the segments following a `node_modules` segment:
`@scope/name` when the first segment is scoped, that segment alone
otherwise, `"unknown"` when there is none. -/
def segsName : List String → String
  | [] => "unknown"
  | [x] => x
  | x :: y :: _ => if strStartsWith x "@" then x ++ "/" ++ y else x

/-! ### Theorems -/

theorem hexDigitChar_mod_isHexDig (n : Nat) : isHexDig (hexDigitChar (n % 16)) = true := by
  have h : n % 16 < 16 := Nat.mod_lt _ (by norm_num)
  have : ∀ m, m < 16 → isHexDig (hexDigitChar m) = true := by decide
  exact this _ h

theorem okEscaped_escChar_append (c : Char) (rest : List Char) :
    okEscaped (escChar c ++ rest) = okEscaped rest := by
  unfold escChar
  split_ifs with h1 h2 h3 h4 h5 h6
  · simp [okEscaped]
  · simp [okEscaped]
  · simp [okEscaped]
  · simp [okEscaped]
  · simp [okEscaped]
  · simp only [hex4, List.cons_append, List.nil_append]
    simp [okEscaped, hexDigitChar_mod_isHexDig]
  · rw [List.singleton_append]
    conv_lhs => rw [okEscaped.eq_def]
    have hb : (c == '"') = false := by simp [h1]
    have hctl : rustIsControl c = false := by simpa using h6
    simp [h2, hb, hctl]

theorem okEscaped_flatMap (l : List Char) :
    okEscaped (l.flatMap escChar) = true := by
  induction l with
  | nil => rfl
  | cons c cs ih => rw [List.flatMap_cons, okEscaped_escChar_append, ih]

theorem addAgg_zero (a : ScanAgg) : addAgg a ScanAgg.zero = a := by
  cases a; simp [addAgg, ScanAgg.zero]

theorem zero_addAgg (a : ScanAgg) : addAgg ScanAgg.zero a = a := by
  cases a; simp [addAgg, ScanAgg.zero]

theorem addAgg_assoc (a b c : ScanAgg) :
    addAgg (addAgg a b) c = addAgg a (addAgg b c) := by
  cases a; cases b; cases c
  simp [addAgg, Nat.add_assoc, Bool.or_assoc]

theorem analyze_file_decomp (seen : List (Nat × Nat)) (agg : ScanAgg) (f : FileMeta) :
    analyze_file ⟨seen, agg⟩ f = ⟨seenUpd seen f, addAgg agg (fileDelta seen f)⟩ := by
  cases agg
  simp only [analyze_file, fileDelta, seenUpd, ScanAgg.zero]
  split_ifs <;> simp [addAgg]

theorem go_agg_add (files : List FileMeta) :
    ∀ (seen : List (Nat × Nat)) (agg : ScanAgg),
      (analyze_go ⟨seen, agg⟩ files).agg = addAgg agg (goAgg seen files) := by
  induction files with
  | nil => intro seen agg; simp [analyze_go, goAgg, addAgg_zero]
  | cons f fs ih =>
    intro seen agg
    have h1 : analyze_go ⟨seen, agg⟩ (f :: fs)
        = analyze_go (analyze_file ⟨seen, agg⟩ f) fs := rfl
    have h2 : goAgg seen (f :: fs)
        = (analyze_go (analyze_file ⟨seen, ScanAgg.zero⟩ f) fs).agg := rfl
    rw [h1, analyze_file_decomp, ih]
    rw [h2, analyze_file_decomp, ih, zero_addAgg, addAgg_assoc]

theorem goAgg_cons (seen : List (Nat × Nat)) (f : FileMeta) (fs : List FileMeta) :
    goAgg seen (f :: fs) = addAgg (fileDelta seen f) (goAgg (seenUpd seen f) fs) := by
  have h2 : goAgg seen (f :: fs)
      = (analyze_go (analyze_file ⟨seen, ScanAgg.zero⟩ f) fs).agg := rfl
  rw [h2, analyze_file_decomp, go_agg_add, zero_addAgg]

theorem seenUpd_eq (seen : List (Nat × Nat)) (f : FileMeta) :
    seenUpd seen f =
      if (f.dev = 0 ∧ f.ino = 0) ∨ (f.dev, f.ino) ∈ seen then seen
      else (f.dev, f.ino) :: seen := by
  simp only [seenUpd, analyze_file]
  split_ifs <;> simp_all

theorem fileDelta_congr {s1 s2 : List (Nat × Nat)} (f : FileMeta)
    (h : (f.dev, f.ino) ∈ s1 ↔ (f.dev, f.ino) ∈ s2) :
    fileDelta s1 f = fileDelta s2 f := by
  simp only [fileDelta, analyze_file]
  split_ifs with h1 h2 h3 h4 h5 h6 <;> simp_all

theorem fileDelta_of_mem {seen : List (Nat × Nat)} {f : FileMeta}
    (h0 : ¬(f.dev = 0 ∧ f.ino = 0)) (hmem : (f.dev, f.ino) ∈ seen) :
    (fileDelta seen f).physical = 0 ∧ (fileDelta seen f).shared = physical_len f ∧
      seenUpd seen f = seen := by
  have hz : (f.dev == 0 && f.ino == 0) = false := by
    simp only [Bool.and_eq_false_iff, beq_eq_false_iff_ne, ne_eq]
    by_contra hc
    push_neg at hc
    exact h0 ⟨by simpa using hc.1, by simpa using hc.2⟩
  refine ⟨?_, ?_, ?_⟩
  · simp only [fileDelta, analyze_file, hz]
    split_ifs <;> simp_all [ScanAgg.zero]
  · simp only [fileDelta, analyze_file, hz]
    split_ifs <;> simp_all [ScanAgg.zero]
  · rw [seenUpd_eq]; simp [hmem]

theorem fileDelta_of_notmem {seen : List (Nat × Nat)} {f : FileMeta}
    (h0 : ¬(f.dev = 0 ∧ f.ino = 0)) (hmem : (f.dev, f.ino) ∉ seen) :
    (fileDelta seen f).physical = physical_len f ∧ (fileDelta seen f).shared = 0 ∧
      seenUpd seen f = (f.dev, f.ino) :: seen := by
  have hz : (f.dev == 0 && f.ino == 0) = false := by
    simp only [Bool.and_eq_false_iff, beq_eq_false_iff_ne, ne_eq]
    by_contra hc
    push_neg at hc
    exact h0 ⟨by simpa using hc.1, by simpa using hc.2⟩
  refine ⟨?_, ?_, ?_⟩
  · simp only [fileDelta, analyze_file, hz]
    split_ifs <;> simp_all [ScanAgg.zero]
  · simp only [fileDelta, analyze_file, hz]
    split_ifs <;> simp_all [ScanAgg.zero]
  · rw [seenUpd_eq]; simp [hmem, h0]

theorem goAgg_congr (fs : List FileMeta) :
    ∀ s1 s2, (∀ f ∈ fs, ((f.dev, f.ino) ∈ s1 ↔ (f.dev, f.ino) ∈ s2)) →
      goAgg s1 fs = goAgg s2 fs := by
  induction fs with
  | nil => intro s1 s2 _; rfl
  | cons f fs ih =>
    intro s1 s2 h
    rw [goAgg_cons, goAgg_cons,
        fileDelta_congr f (h f (List.mem_cons_self f fs))]
    congr 1
    apply ih
    intro g hg
    rw [seenUpd_eq, seenUpd_eq]
    by_cases hc : (f.dev = 0 ∧ f.ino = 0)
    · simp [hc, h g (List.mem_cons_of_mem f hg)]
    · by_cases hm : (f.dev, f.ino) ∈ s1
      · have hm2 : (f.dev, f.ino) ∈ s2 := (h f (List.mem_cons_self f fs)).1 hm
        simp [hc, hm, hm2, h g (List.mem_cons_of_mem f hg)]
      · have hm2 : (f.dev, f.ino) ∉ s2 := fun hx =>
          hm ((h f (List.mem_cons_self f fs)).2 hx)
        simp [hc, hm, hm2, List.mem_cons, h g (List.mem_cons_of_mem f hg)]

theorem goAgg_filter_of_mem (id : Nat × Nat) (L : Nat) (fs : List FileMeta) :
    ∀ seen, id ∈ seen → id ≠ (0, 0) →
      (∀ f ∈ fs, (f.dev, f.ino) = id → physical_len f = L) →
      (goAgg seen fs).physical
          = (goAgg seen (fs.filter (fun f => !((f.dev, f.ino) == id)))).physical
        ∧ (goAgg seen fs).shared
          = (goAgg seen (fs.filter (fun f => !((f.dev, f.ino) == id)))).shared
            + (fs.countP (fun f => (f.dev, f.ino) == id)) * L := by
  induction fs with
  | nil => intro seen _ _ _; simp
  | cons f fs ih =>
    intro seen hmem hne hL
    by_cases hid : (f.dev, f.ino) = id
    · have h0 : ¬(f.dev = 0 ∧ f.ino = 0) := by
        rintro ⟨h1, h2⟩
        exact hne (by rw [← hid, h1, h2])
      have hmemf : (f.dev, f.ino) ∈ seen := by rw [hid]; exact hmem
      obtain ⟨hp, hs, hu⟩ := fileDelta_of_mem h0 hmemf
      have hfilter : (f :: fs).filter (fun f => !((f.dev, f.ino) == id))
          = fs.filter (fun f => !((f.dev, f.ino) == id)) := by
        simp [List.filter_cons, hid]
      have hcnt : (f :: fs).countP (fun f => (f.dev, f.ino) == id)
          = fs.countP (fun f => (f.dev, f.ino) == id) + 1 := by
        simp [List.countP_cons, hid]
      obtain ⟨ihp, ihs⟩ := ih seen hmem hne (fun g hg => hL g (List.mem_cons_of_mem f hg))
      have hLf : physical_len f = L := hL f (List.mem_cons_self f fs) hid
      rw [goAgg_cons, hfilter, hcnt, hu]
      constructor
      · simp [addAgg, hp, ihp]
      · simp only [addAgg, hs, hLf, ihs]
        ring
    · have hfilter : (f :: fs).filter (fun f => !((f.dev, f.ino) == id))
          = f :: fs.filter (fun f => !((f.dev, f.ino) == id)) := by
        simp [List.filter_cons, hid]
      have hcnt : (f :: fs).countP (fun f => (f.dev, f.ino) == id)
          = fs.countP (fun f => (f.dev, f.ino) == id) := by
        simp [List.countP_cons, hid]
      have hmem' : id ∈ seenUpd seen f := by
        rw [seenUpd_eq]
        split_ifs <;> simp [hmem, List.mem_cons]
      obtain ⟨ihp, ihs⟩ := ih (seenUpd seen f) hmem' hne
        (fun g hg => hL g (List.mem_cons_of_mem f hg))
      rw [goAgg_cons, hfilter, goAgg_cons, hcnt]
      constructor
      · simp [addAgg, ihp]
      · simp only [addAgg, ihs]
        ring

theorem goAgg_filter_of_notmem (id : Nat × Nat) (L : Nat) (fs : List FileMeta) :
    ∀ seen, id ∉ seen → id ≠ (0, 0) →
      (∀ f ∈ fs, (f.dev, f.ino) = id → physical_len f = L) →
      0 < fs.countP (fun f => (f.dev, f.ino) == id) →
      (goAgg seen fs).physical
          = (goAgg seen (fs.filter (fun f => !((f.dev, f.ino) == id)))).physical + L
        ∧ (goAgg seen fs).shared
          = (goAgg seen (fs.filter (fun f => !((f.dev, f.ino) == id)))).shared
            + (fs.countP (fun f => (f.dev, f.ino) == id) - 1) * L := by
  induction fs with
  | nil => intro seen _ _ _ hpos; simp at hpos
  | cons f fs ih =>
    intro seen hnm hne hL hpos
    by_cases hid : (f.dev, f.ino) = id
    · have h0 : ¬(f.dev = 0 ∧ f.ino = 0) := by
        rintro ⟨h1, h2⟩
        exact hne (by rw [← hid, h1, h2])
      have hnmf : (f.dev, f.ino) ∉ seen := by rw [hid]; exact hnm
      obtain ⟨hp, hs, hu⟩ := fileDelta_of_notmem h0 hnmf
      have hu' : seenUpd seen f = id :: seen := by rw [hu, hid]
      have hfilter : (f :: fs).filter (fun f => !((f.dev, f.ino) == id))
          = fs.filter (fun f => !((f.dev, f.ino) == id)) := by
        simp [List.filter_cons, hid]
      have hcnt : (f :: fs).countP (fun f => (f.dev, f.ino) == id)
          = fs.countP (fun f => (f.dev, f.ino) == id) + 1 := by
        simp [List.countP_cons, hid]
      have hLf : physical_len f = L := hL f (List.mem_cons_self f fs) hid
      obtain ⟨bp, bs⟩ := goAgg_filter_of_mem id L fs (id :: seen)
        (List.mem_cons_self id seen) hne (fun g hg => hL g (List.mem_cons_of_mem f hg))
      have hcongr : goAgg (id :: seen) (fs.filter (fun f => !((f.dev, f.ino) == id)))
          = goAgg seen (fs.filter (fun f => !((f.dev, f.ino) == id))) := by
        apply goAgg_congr
        intro g hg
        have hgne : (g.dev, g.ino) ≠ id := by
          have := List.of_mem_filter hg
          simpa using this
        simp [List.mem_cons, hgne]
      rw [goAgg_cons, hu', hfilter, hcnt]
      constructor
      · simp [addAgg, hp, bp, hcongr, hLf, Nat.add_comm]
      · simp only [addAgg, hs, bs, hcongr, Nat.add_succ_sub_one]
        ring
    · have hfilter : (f :: fs).filter (fun f => !((f.dev, f.ino) == id))
          = f :: fs.filter (fun f => !((f.dev, f.ino) == id)) := by
        simp [List.filter_cons, hid]
      have hcnt : (f :: fs).countP (fun f => (f.dev, f.ino) == id)
          = fs.countP (fun f => (f.dev, f.ino) == id) := by
        simp [List.countP_cons, hid]
      have hnm' : id ∉ seenUpd seen f := by
        rw [seenUpd_eq]
        split_ifs
        · exact hnm
        · simp only [List.mem_cons, not_or]
          exact ⟨fun h => hid h.symm, hnm⟩
      rw [hcnt] at hpos
      obtain ⟨ihp, ihs⟩ := ih (seenUpd seen f) hnm' hne
        (fun g hg => hL g (List.mem_cons_of_mem f hg)) hpos
      rw [goAgg_cons, hfilter, goAgg_cons, hcnt]
      constructor
      · simp only [addAgg, ihp]
        ring
      · simp only [addAgg, ihs]
        ring

/-- Each file adds its logical length to `logical` and its physical length to
exactly one of `physical`/`shared`; hence when every physical length equals
the logical length, the walk preserves `logical = physical + shared`. -/
theorem analyze_go_logical (fs : List FileMeta) :
    ∀ st : AnalyzeState,
      st.agg.logical = st.agg.physical + st.agg.shared →
      (∀ f ∈ fs, physical_len f = f.len) →
      (analyze_go st fs).agg.logical
        = (analyze_go st fs).agg.physical + (analyze_go st fs).agg.shared := by
  induction fs with
  | nil => intro st h _; exact h
  | cons f fs ih =>
    intro st h hp
    have hf : physical_len f = f.len := hp f (List.mem_cons_self f fs)
    have hstep : (analyze_file st f).agg.logical
        = (analyze_file st f).agg.physical + (analyze_file st f).agg.shared := by
      simp only [analyze_file]
      split_ifs <;> (simp; omega)
    exact ih (analyze_file st f) hstep (fun g hg => hp g (List.mem_cons_of_mem f hg))

/-! ### Claim theorems -/

/-- Claim C10: the JSON emitter's string output (as a value via
`value_string` and as a key via `key`) is the input wrapped in double
quotes, preceded by at most a separating comma, with every quote, backslash
and control character escaped (`\"`, `\\`, `\n`, `\r`, `\t`, or `\u00XX`),
so the emitted body passes the `okEscaped` scan: it contains no unescaped
quote, backslash, or control character. -/
theorem c10_json_string_escaping (w : JsonWriter) (s : String) :
    okEscaped (raw_string_escaped s).data = true
    ∧ (∃ sep, (sep = "" ∨ sep = ",") ∧
        (w.value_string s).out = w.out ++ sep ++ "\"" ++ raw_string_escaped s ++ "\"")
    ∧ (∃ sep, (sep = "" ∨ sep = ",") ∧
        (w.key s).out = w.out ++ sep ++ "\"" ++ raw_string_escaped s ++ "\"" ++ ":") := by
  obtain ⟨out, stack, ak⟩ := w
  refine ⟨okEscaped_flatMap s.data, ?_, ?_⟩
  · cases ak with
    | true =>
      refine ⟨"", Or.inl rfl, ?_⟩
      simp [JsonWriter.value_string, JsonWriter.string]
    | false =>
      cases stack with
      | nil =>
        refine ⟨"", Or.inl rfl, ?_⟩
        simp [JsonWriter.value_string, JsonWriter.string, JsonWriter.push_comma_if_needed]
      | cons top rest =>
        cases top with
        | true =>
          refine ⟨"", Or.inl rfl, ?_⟩
          simp [JsonWriter.value_string, JsonWriter.string, JsonWriter.push_comma_if_needed]
        | false =>
          refine ⟨",", Or.inr rfl, ?_⟩
          simp [JsonWriter.value_string, JsonWriter.string, JsonWriter.push_comma_if_needed,
            String.append_assoc]
  · cases stack with
    | nil =>
      refine ⟨"", Or.inl rfl, ?_⟩
      simp [JsonWriter.key, JsonWriter.string, JsonWriter.push_comma_if_needed]
    | cons top rest =>
      cases top with
      | true =>
        refine ⟨"", Or.inl rfl, ?_⟩
        simp [JsonWriter.key, JsonWriter.string, JsonWriter.push_comma_if_needed]
      | false =>
        refine ⟨",", Or.inr rfl, ?_⟩
        simp [JsonWriter.key, JsonWriter.string, JsonWriter.push_comma_if_needed,
          String.append_assoc]

theorem run_materialize_tasks_jobs_irrel (env : MatEnv) (strategy : LinkStrategy)
    (tasks : List MaterializeTask) :
    ∀ (stats : MaterializeStats) (j1 j2 : Nat),
      run_materialize_tasks env strategy j1 tasks stats
        = run_materialize_tasks env strategy j2 tasks stats := by
  induction tasks with
  | nil => intro stats j1 j2; rfl
  | cons t rest ih =>
    intro stats j1 j2
    simp only [run_materialize_tasks]
    cases run_one_task env strategy stats t with
    | mk stats' e =>
      cases e with
      | none => exact ih stats' j1 j2
      | some msg => rfl

theorem materialize_tree_profile_irrel (env : MatEnv) (src : List MatEntry)
    (src_root dst_root : String) (strategy : LinkStrategy) (jobs : Nat)
    (p q : MaterializeProfile) :
    materialize_tree env src src_root dst_root strategy jobs p
      = materialize_tree env src src_root dst_root strategy jobs q := by
  simp only [materialize_tree]
  rw [run_materialize_tasks_jobs_irrel env strategy _ _ (effective_jobs p jobs)
    (effective_jobs q jobs)]

/-- Claim C9: for every jobs value, the `materialize` command reports
`effectiveJobs = jobs` under profile `auto`, `max(jobs*2, 4)` under
`io-heavy`, `max(jobs*3, 8)` under `small-files`, and the reported
`stats.files` is identical across the three profiles. -/
theorem c9_materialize_profiles (env : MatEnv) (src : List MatEntry)
    (src_root dst_root : String) (strategy : LinkStrategy) (jobs : Nat) :
    (materialize_cmd env src src_root dst_root strategy jobs .auto).effectiveJobs = jobs
    ∧ (materialize_cmd env src src_root dst_root strategy jobs .ioHeavy).effectiveJobs
        = max (jobs * 2) 4
    ∧ (materialize_cmd env src src_root dst_root strategy jobs .smallFiles).effectiveJobs
        = max (jobs * 3) 8
    ∧ (materialize_cmd env src src_root dst_root strategy jobs .ioHeavy).stats.files
        = (materialize_cmd env src src_root dst_root strategy jobs .auto).stats.files
    ∧ (materialize_cmd env src src_root dst_root strategy jobs .smallFiles).stats.files
        = (materialize_cmd env src src_root dst_root strategy jobs .auto).stats.files := by
  have hio := materialize_tree_profile_irrel env src src_root dst_root strategy jobs
    .ioHeavy .auto
  have hsf := materialize_tree_profile_irrel env src src_root dst_root strategy jobs
    .smallFiles .auto
  refine ⟨?_, ?_, ?_, ?_, ?_⟩ <;>
    simp only [materialize_cmd, hio, hsf] <;>
    cases materialize_tree env src src_root dst_root strategy jobs .auto <;>
    simp [effective_jobs]

/-- Claim C7: a directory is classified as a package iff either its parent
is named `node_modules` and its own name begins with neither `@` nor `.`,
or its grandparent is named `node_modules`, its parent name begins with `@`,
and its own name does not begin with `.` (so `.bin` and hidden directories,
whose names begin with `.`, are never packages). -/
theorem c7_is_package_dir_iff (dir : List String) :
    is_package_dir dir = true ↔
      ((∃ name, fileNameOf dir = some name
          ∧ (parentOf dir).bind fileNameOf = some "node_modules"
          ∧ strStartsWith name "@" = false ∧ strStartsWith name "." = false)
       ∨ (∃ name pname, fileNameOf dir = some name
          ∧ (parentOf dir).bind fileNameOf = some pname
          ∧ strStartsWith pname "@" = true
          ∧ ((parentOf dir).bind parentOf).bind fileNameOf = some "node_modules"
          ∧ strStartsWith name "." = false)) := by
  cases hfn : fileNameOf dir with
  | none =>
    have hlhs : is_package_dir dir = false := by simp [is_package_dir, hfn]
    simp [hlhs, hfn]
  | some name =>
    by_cases hdot : strStartsWith name "." = true
    · have hlhs : is_package_dir dir = false := by simp [is_package_dir, hfn, hdot]
      rw [hlhs]
      constructor
      · intro h; exact absurd h (by simp)
      · rintro (⟨n, hn, hpe, hat, hd⟩ | ⟨n, pn, hn, hpe, hat, hg, hd⟩) <;>
        all_goals
          (injection hn with hn'; subst hn';
           rw [hdot] at hd; exact absurd hd (by simp))
    · have hdotf : strStartsWith name "." = false := by
        revert hdot; cases strStartsWith name "." <;> simp
      by_cases hbinq : name = ".bin"
      · subst hbinq
        exact absurd hdotf (by decide)
      · have hcond : (name == ".bin" || strStartsWith name ".") = false := by
          simp [hbinq, hdotf]
        cases hpar : parentOf dir with
        | none =>
          have hlhs : is_package_dir dir = false := by
            simp [is_package_dir, hfn, hcond, hpar]
          rw [hlhs]
          constructor
          · intro h; exact absurd h (by simp)
          · rintro (⟨n, hn, hpe, hat, hd⟩ | ⟨n, pn, hn, hpe, hat, hg, hd⟩) <;>
            all_goals (exact absurd hpe (by simp))
        | some parent =>
          by_cases hpn : fileNameOf parent = some "node_modules"
          · have hlhs : is_package_dir dir = !strStartsWith name "@" := by
              simp [is_package_dir, hfn, hcond, hpar, hpn]
            rw [hlhs]
            constructor
            · intro h
              left
              refine ⟨name, rfl, ?_, ?_, hdotf⟩
              · exact hpn
              · simpa using h
            · rintro (⟨n, hn, hpe, hat, hd⟩ | ⟨n, pn, hn, hpe, hat, hg, hd⟩)
              · injection hn with hn'; subst hn'
                simp [hat]
              · have hpe' : fileNameOf parent = some pn := hpe
                rw [hpn] at hpe'
                injection hpe' with hpe''
                subst hpe''
                exact absurd hat (by decide)
          · cases hgp : parentOf parent with
            | none =>
              have hlhs : is_package_dir dir = false := by
                simp [is_package_dir, hfn, hcond, hpar, hpn, hgp]
              rw [hlhs]
              constructor
              · intro h; exact absurd h (by simp)
              · rintro (⟨n, hn, hpe, hat, hd⟩ | ⟨n, pn, hn, hpe, hat, hg, hd⟩)
                · exact absurd hpe hpn
                · have hg' : (parentOf parent).bind fileNameOf = some "node_modules" := hg
                  rw [hgp] at hg'
                  exact absurd hg' (by simp)
            | some grand =>
              have hlhs : is_package_dir dir
                  = (fileNameOf grand == some "node_modules" && is_scope_dir parent) := by
                simp [is_package_dir, hfn, hcond, hpar, hpn, hgp]
              rw [hlhs]
              constructor
              · intro h
                rw [Bool.and_eq_true] at h
                obtain ⟨hg, hs⟩ := h
                right
                unfold is_scope_dir at hs
                cases hpf : fileNameOf parent with
                | none => rw [hpf] at hs; exact absurd hs (by simp)
                | some pn =>
                  rw [hpf] at hs
                  refine ⟨name, pn, rfl, hpf, hs, ?_, hdotf⟩
                  show (parentOf parent).bind fileNameOf = some "node_modules"
                  rw [hgp]
                  show fileNameOf grand = some "node_modules"
                  simpa using hg
              · rintro (⟨n, hn, hpe, hat, hd⟩ | ⟨n, pn, hn, hpe, hat, hg, hd⟩)
                · exact absurd hpe hpn
                · have hpe' : fileNameOf parent = some pn := hpe
                  have hg' : (parentOf parent).bind fileNameOf = some "node_modules" := hg
                  rw [hgp] at hg'
                  have hg'' : fileNameOf grand = some "node_modules" := hg'
                  rw [Bool.and_eq_true]
                  constructor
                  · simp [hg'']
                  · unfold is_scope_dir
                    rw [hpe']
                    exact hat

/-- Claim C5: the ingester's `walk_dir` feeds the manifest writer in raw
`read_dir` order — on a directory whose OS listing is `[b, a]` it yields
`["b", "a"]`, which is not in lexicographic order of file name. -/
theorem c5_ingest_walk_unsorted :
    walk_dir [FsEntry.file "b", FsEntry.file "a"] "" = ["b", "a"]
    ∧ sortedNames (walk_dir [FsEntry.file "b", FsEntry.file "a"] "") = false := by
  have h : walk_dir [FsEntry.file "b", FsEntry.file "a"] "" = ["b", "a"] := by
    simp [walk_dir, FsEntry.name, show ("" : String).isEmpty = true from rfl]
  exact ⟨h, by rw [h]; decide⟩

theorem splitn2_of_not_mem {sep : Char} (l : List Char) (h : sep ∉ l) :
    splitn2 sep l = none := by
  induction l with
  | nil => rfl
  | cons c rest ih =>
    have hc : ¬(c = sep) := fun hx => h (hx ▸ List.mem_cons_self c rest)
    simp only [splitn2, hc, if_false]
    rw [ih (fun hx => h (List.mem_cons_of_mem c hx))]
    rfl

theorem splitn2_append {sep : Char} (algo tail : List Char) (h : sep ∉ algo) :
    splitn2 sep (algo ++ sep :: tail) = some (algo, tail) := by
  induction algo with
  | nil => simp [splitn2]
  | cons c rest ih =>
    have hc : ¬(c = sep) := fun hx => h (hx ▸ List.mem_cons_self c rest)
    simp only [List.cons_append, splitn2, hc, if_false, List.append_eq]
    rw [ih (fun hx => h (List.mem_cons_of_mem c hx))]
    rfl

/-- Claim C6 counterexample: with an **empty** base64 tail (`"sha512-"`),
the integrity parse does **not** fail — it returns the algorithm paired
with the empty hex digest, although the claim requires failure whenever
either half is empty. -/
theorem c6_counterexample :
    cas_key_from_integrity "sha512-" = some ("sha512", "")
    ∧ cas_key_from_integrity "sha512-" ≠ none := by
  constructor
  · rfl
  · intro h
    simp [show cas_key_from_integrity "sha512-" = some ("sha512", "") from rfl] at h

/-- Claim C6 (amended): the integrity parse splits the external string on
the **first** `-`, base64-decodes the tail, and returns the algorithm
paired with the lowercase hex of the decoded digest; it fails iff the
string contains no `-` at all or the base64 tail is invalid — an empty
algorithm or an empty tail is accepted. -/
theorem c6_integrity_parse :
    (∀ s : String, '-' ∉ s.data → cas_key_from_integrity s = none)
    ∧ (∀ algo tail : List Char, '-' ∉ algo →
        cas_key_from_integrity (String.mk (algo ++ '-' :: tail))
          = (b64Decode tail).map
              (fun bytes => (String.mk algo, String.mk (bytes.flatMap hexByte)))) := by
  constructor
  · intro s hs
    simp only [cas_key_from_integrity]
    rw [splitn2_of_not_mem s.data hs]
  · intro algo tail h
    simp only [cas_key_from_integrity]
    rw [splitn2_append algo tail h]
    cases hb : b64Decode tail <;> simp [hb]

/-- Witness for C6 (amended), at `"sha512-EjRW"` (decoding to bytes
`0x12 0x34 0x56`) and at the dash-less string `"sha512"`. -/
theorem c6_integrity_parse_witness :
    cas_key_from_integrity "sha512-EjRW" = some ("sha512", "123456")
    ∧ cas_key_from_integrity "sha512" = none := by
  constructor
  · have h := c6_integrity_parse.2 "sha512".data "EjRW".data (by decide)
    exact h.trans (by rfl)
  · exact c6_integrity_parse.1 "sha512" (by decide)

theorem findIdx?_first_nm (rest : List String) (pre : List String)
    (h : "node_modules" ∉ pre) :
    ∀ i, List.findIdx? (· = "node_modules") (pre ++ "node_modules" :: rest) i
      = some (pre.length + i) := by
  induction pre with
  | nil => intro i; simp [List.findIdx?]
  | cons a pre ih =>
    intro i
    have ha : ¬(a = "node_modules") := fun hx => h (hx ▸ List.mem_cons_self a pre)
    rw [List.cons_append, List.findIdx?, if_neg (by simpa using ha),
      ih (fun hx => h (List.mem_cons_of_mem a hx)) (i + 1)]
    congr 1
    simp
    omega

/-- Claim C4 counterexample: for the nested install path
`node_modules/a/node_modules/b` (entry lacking a `name` field), the code
derives the name from the segment after the **first** `node_modules`,
giving `"a"`, while the spec's last-segment rule gives `"b"`. -/
theorem c4_counterexample :
    package_name_from_path "node_modules/a/node_modules/b" = "a"
    ∧ nameFromPathLastSpec "node_modules/a/node_modules/b" = "b"
    ∧ ("a" : String) ≠ "b" := by
  refine ⟨by decide, by decide, by decide⟩

theorem package_name_from_parts_some (parts : List String) (idx : Nat)
    (h : parts.findIdx? (· = "node_modules") = some idx) :
    package_name_from_parts parts =
      if idx + 1 < parts.length then
        (if strStartsWith (parts.getD (idx + 1) "") "@" && decide (idx + 2 < parts.length) then
          parts.getD (idx + 1) "" ++ "/" ++ parts.getD (idx + 2) ""
        else parts.getD (idx + 1) "")
      else "unknown" := by
  unfold package_name_from_parts
  rw [h]

/-- Claim C4 (amended): for a lockfile entry lacking a `name` field, the
resolved name is derived from the segment(s) immediately following the
**first** `node_modules` segment of the install path, joining `@scope/name`
when that segment is scoped (this coincides with the last segment(s) only
when the path contains a single `node_modules` segment). -/
theorem c4_name_after_first_node_modules (rel : String) (pre rest : List String)
    (hsplit : (splitSep '/' rel.data).map String.mk = pre ++ "node_modules" :: rest)
    (hpre : "node_modules" ∉ pre) :
    package_name_from_path rel = segsName rest := by
  have hrw : package_name_from_path rel
      = package_name_from_parts (pre ++ "node_modules" :: rest) := by
    unfold package_name_from_path
    rw [hsplit]
  rw [hrw, package_name_from_parts_some _ _ (findIdx?_first_nm rest pre hpre 0)]
  cases rest with
  | nil =>
    rw [if_neg (by simp)]
    rfl
  | cons x rest' =>
    have hcond1 : pre.length + 0 + 1 < (pre ++ "node_modules" :: x :: rest').length := by
      simp only [List.length_append, List.length_cons]
      omega
    have hget1 : (pre ++ "node_modules" :: x :: rest').getD (pre.length + 0 + 1) "" = x := by
      rw [List.getD_append_right _ _ _ _ (by omega)]
      have h1 : pre.length + 0 + 1 - pre.length = 1 := by omega
      rw [h1]
      rfl
    rw [if_pos hcond1, hget1]
    cases rest' with
    | nil =>
      have hcond2 : ¬(pre.length + 0 + 2 < (pre ++ ["node_modules", x]).length) := by
        simp only [List.length_append, List.length_cons, List.length_nil]
        omega
      rw [if_neg (by simp [hcond2])]
      rfl
    | cons y rest'' =>
      have hcond2 : pre.length + 0 + 2 < (pre ++ "node_modules" :: x :: y :: rest'').length := by
        simp only [List.length_append, List.length_cons]
        omega
      have hget2 : (pre ++ "node_modules" :: x :: y :: rest'').getD (pre.length + 0 + 2) ""
          = y := by
        rw [List.getD_append_right _ _ _ _ (by omega)]
        have h2 : pre.length + 0 + 2 - pre.length = 2 := by omega
        rw [h2]
        rfl
      by_cases hs : strStartsWith x "@" = true
      · rw [if_pos (by simp [hs, hcond2]), hget2]
        simp [segsName, hs]
      · have hs' : strStartsWith x "@" = false := by
          revert hs; cases strStartsWith x "@" <;> simp
        rw [if_neg (by simp [hs'])]
        simp [segsName, hs']

/-- Witness for C4 (amended): the scoped single-level path
`node_modules/@s/n` resolves to `@s/n`. -/
theorem c4_name_after_first_node_modules_witness :
    package_name_from_path "node_modules/@s/n" = "@s/n" := by
  have h := c4_name_after_first_node_modules "node_modules/@s/n" [] ["@s", "n"]
    (by decide) (by decide)
  exact h.trans (by decide)

/-- Claim C8: a lockfile entry (under an install path rooted at
`node_modules`) that is missing its `version`, its `resolved` URL, or its
`integrity` field is rejected by `parse_package_entry` with an error naming
the missing field and the entry's path. -/
theorem c8_missing_field_rejected (rel entry : String)
    (_hroot : strStartsWith rel "node_modules" = true)
    (hmiss : extract_json_field entry "version" = none
      ∨ extract_json_field entry "resolved" = none
      ∨ extract_json_field entry "integrity" = none) :
    ∃ msg, parse_package_entry rel entry = .error msg
      ∧ (msg = "Missing version for " ++ rel
         ∨ msg = "Missing resolved URL for " ++ rel
         ∨ msg = "Missing integrity for " ++ rel) := by
  unfold parse_package_entry
  cases hv : extract_json_field entry "version" with
  | none => exact ⟨_, rfl, Or.inl rfl⟩
  | some v =>
    cases hr : extract_json_field entry "resolved" with
    | none => exact ⟨_, rfl, Or.inr (Or.inl rfl)⟩
    | some r =>
      cases hi : extract_json_field entry "integrity" with
      | none => exact ⟨_, rfl, Or.inr (Or.inr rfl)⟩
      | some i =>
        rw [hv, hr, hi] at hmiss
        rcases hmiss with h | h | h <;> exact absurd h (by simp)

/-- Witness for C8: the empty entry body under `node_modules/a` is rejected
with `Missing version for node_modules/a`. -/
theorem c8_missing_field_rejected_witness :
    ∃ msg, parse_package_entry "node_modules/a" "" = .error msg
      ∧ (msg = "Missing version for " ++ "node_modules/a"
         ∨ msg = "Missing resolved URL for " ++ "node_modules/a"
         ∨ msg = "Missing integrity for " ++ "node_modules/a") :=
  c8_missing_field_rejected "node_modules/a" "" (by decide) (Or.inl (by decide))

/-- Claim C2: when a package's `sha512` digest of the downloaded body
differs from the expected hex of its integrity key (and the package is not
already verified), the fetcher fails that package with the
integrity-mismatch error, leaves the temp file in the tmp directory, and
neither publishes the tarball nor writes the `.verified` sentinel (nor the
extraction marker). -/
theorem c2_integrity_mismatch_leaves_tmp (env : FetchEnv) (pkg : ResolvedPackage)
    (st : StoreState) (c : FetchCounters) (hex : String)
    (hkey : cas_key_from_integrity pkg.integrity = some ("sha512", hex))
    (hmm : env.sha512_hex (env.body pkg.resolved_url) ≠ hex)
    (hnv : ("sha512", hex) ∉ st.verified) :
    ∃ st', fetch_one env pkg st c
        = (st',
           { c with bytes_downloaded :=
               c.bytes_downloaded + (env.body pkg.resolved_url).length },
           some ("Integrity mismatch for " ++ pkg.name ++ ": expected " ++ hex
             ++ ", got " ++ env.sha512_hex (env.body pkg.resolved_url)))
      ∧ st'.tarballs = st.tarballs
      ∧ st'.verified = st.verified
      ∧ st'.extracted = st.extracted
      ∧ (hex ++ ".tgz.tmp") ∈ st'.tmp := by
  refine ⟨{ st with tmp := keyInsert (hex ++ ".tgz.tmp") st.tmp }, ?_, rfl, rfl, rfl, ?_⟩
  · simp only [fetch_one, hkey]
    rw [if_neg (fun hb => hnv hb.1)]
    rw [if_pos (Or.inr hnv)]
    rw [if_pos ⟨trivial, hmm⟩]
    simp [after_download]
  · unfold keyInsert
    split_ifs with h
    · exact h
    · exact List.mem_cons_self _ _

/-- Witness for C2: a concrete package with integrity `sha512-qw==`
(expected hex `ab`) downloaded in an environment whose hash is `00`. -/
theorem c2_integrity_mismatch_leaves_tmp_witness :
    ∃ st', fetch_one envBad pkgA StoreState.empty FetchCounters.zero
        = (st',
           { FetchCounters.zero with bytes_downloaded :=
               FetchCounters.zero.bytes_downloaded
                 + (envBad.body pkgA.resolved_url).length },
           some ("Integrity mismatch for " ++ pkgA.name ++ ": expected " ++ "ab"
             ++ ", got " ++ envBad.sha512_hex (envBad.body pkgA.resolved_url)))
      ∧ st'.tarballs = StoreState.empty.tarballs
      ∧ st'.verified = StoreState.empty.verified
      ∧ st'.extracted = StoreState.empty.extracted
      ∧ ("ab" ++ ".tgz.tmp") ∈ st'.tmp :=
  c2_integrity_mismatch_leaves_tmp envBad pkgA StoreState.empty FetchCounters.zero "ab"
    (by decide) (by decide) (by decide)

theorem mem_keyInsert {α : Type} [DecidableEq α] (x y : α) (l : List α) :
    x ∈ keyInsert y l ↔ x = y ∨ x ∈ l := by
  unfold keyInsert
  split_ifs with h
  · constructor
    · exact Or.inr
    · rintro (rfl | hx)
      · exact h
      · exact hx
  · simp [List.mem_cons]

theorem fetch_one_cached (env : FetchEnv) (pkg : ResolvedPackage) (st : StoreState)
    (c : FetchCounters) (k : String × String)
    (hkey : cas_key_from_integrity pkg.integrity = some k)
    (hv : k ∈ st.verified) (he : k ∈ st.extracted) :
    fetch_one env pkg st c
      = (st, { c with packages_cached := c.packages_cached + 1 }, none) := by
  obtain ⟨algo, hex⟩ := k
  simp only [fetch_one, hkey]
  rw [if_pos ⟨hv, he⟩]

theorem fetch_loop_cached (env : FetchEnv) (pkgs : List ResolvedPackage) :
    ∀ (st : StoreState) (c : FetchCounters),
      (∀ p ∈ pkgs, ∃ k, cas_key_from_integrity p.integrity = some k
        ∧ k ∈ st.verified ∧ k ∈ st.extracted) →
      fetch_loop env pkgs st c
        = (st, { c with packages_cached := c.packages_cached + pkgs.length }, none) := by
  induction pkgs with
  | nil => intro st c _; simp [fetch_loop]
  | cons p rest ih =>
    intro st c hall
    obtain ⟨k, hk, hv, he⟩ := hall p (List.mem_cons_self p rest)
    simp only [fetch_loop, fetch_one_cached env p st c k hk hv he]
    simp only [Option.isSome_none, Bool.false_eq_true, if_false]
    rw [ih st _ (fun q hq => hall q (List.mem_cons_of_mem p hq))]
    have hc : c.packages_cached + 1 + rest.length
        = c.packages_cached + (rest.length + 1) := by omega
    simp [hc]

/-- One fresh package: with a valid key whose hash matches (or whose
algorithm is not `sha512`), an unverified key is downloaded, published,
verified and extracted, leaving the tmp directory empty. -/
theorem fetch_one_fresh (env : FetchEnv) (pkg : ResolvedPackage) (st : StoreState)
    (c : FetchCounters) (algo hex : String)
    (hkey : cas_key_from_integrity pkg.integrity = some (algo, hex))
    (hmatch : algo = "sha512" → env.sha512_hex (env.body pkg.resolved_url) = hex)
    (hnv : (algo, hex) ∉ st.verified) (hne : (algo, hex) ∉ st.extracted)
    (htmp : st.tmp = []) :
    fetch_one env pkg st c
      = (⟨keyInsert (algo, hex) st.tarballs, keyInsert (algo, hex) st.verified,
          keyInsert (algo, hex) st.extracted, []⟩,
         { c with
            packages_fetched := c.packages_fetched + 1,
            bytes_downloaded := c.bytes_downloaded + (env.body pkg.resolved_url).length },
         none) := by
  simp only [fetch_one, hkey]
  rw [if_neg (fun hb => hnv hb.1), if_pos (Or.inr hnv),
    if_neg (fun hc => hc.2 (hmatch hc.1))]
  simp only [after_download, Option.isSome_none, Bool.false_eq_true, if_false]
  rw [if_pos hne, htmp]
  have herase : (keyInsert (hex ++ ".tgz.tmp") ([] : List String)).erase (hex ++ ".tgz.tmp")
      = [] := by
    simp [keyInsert]
  rw [herase]

/-- A run of the fetch loop over packages none of whose keys are yet in the
store: every package is fetched, none is cached, and afterwards exactly the
keys of the processed packages have been added to the tarball, sentinel and
extraction sets. -/
theorem fetch_loop_fresh (env : FetchEnv) (pkgs : List ResolvedPackage) :
    ∀ (st : StoreState) (c : FetchCounters),
      (∀ p ∈ pkgs, ∃ k, cas_key_from_integrity p.integrity = some k
        ∧ (k.1 = "sha512" → env.sha512_hex (env.body p.resolved_url) = k.2)) →
      pkgs.Pairwise (fun p q =>
        cas_key_from_integrity p.integrity ≠ cas_key_from_integrity q.integrity) →
      (∀ p ∈ pkgs, ∀ k, cas_key_from_integrity p.integrity = some k →
        k ∉ st.verified ∧ k ∉ st.extracted) →
      st.tmp = [] →
      ∃ (st' : StoreState) (b : Nat),
        fetch_loop env pkgs st c
          = (st', ⟨c.packages_fetched + pkgs.length, c.packages_cached, b⟩, none)
        ∧ st'.tmp = []
        ∧ (∀ k, k ∈ st'.verified ↔
            (k ∈ st.verified ∨ ∃ p ∈ pkgs, cas_key_from_integrity p.integrity = some k))
        ∧ (∀ k, k ∈ st'.extracted ↔
            (k ∈ st.extracted ∨ ∃ p ∈ pkgs, cas_key_from_integrity p.integrity = some k)) := by
  induction pkgs with
  | nil =>
    intro st c _ _ _ _
    exact ⟨st, c.bytes_downloaded, by simp [fetch_loop], by simpa, by simp, by simp⟩
  | cons p rest ih =>
    intro st c hall hdist hfresh htmp
    obtain ⟨k, hk, hmatch⟩ := hall p (List.mem_cons_self p rest)
    obtain ⟨algo, hex⟩ := k
    obtain ⟨hnv, hne⟩ := hfresh p (List.mem_cons_self p rest) _ hk
    obtain ⟨hhead, htail⟩ := List.pairwise_cons.mp hdist
    have step := fetch_one_fresh env p st c algo hex hk hmatch hnv hne htmp
    have hkeyne : ∀ q ∈ rest, ∀ kq, cas_key_from_integrity q.integrity = some kq →
        kq ≠ (algo, hex) := by
      intro q hq kq hkq hcontra
      exact hhead q hq (by rw [hk, hkq, hcontra])
    obtain ⟨st', b, hloop, htmp', hiffv, hiffe⟩ :=
      ih (⟨keyInsert (algo, hex) st.tarballs, keyInsert (algo, hex) st.verified,
            keyInsert (algo, hex) st.extracted, []⟩)
        ({ c with
            packages_fetched := c.packages_fetched + 1,
            bytes_downloaded := c.bytes_downloaded + (env.body p.resolved_url).length })
        (fun q hq => hall q (List.mem_cons_of_mem p hq))
        htail
        (by
          intro q hq kq hkq
          obtain ⟨h1, h2⟩ := hfresh q (List.mem_cons_of_mem p hq) kq hkq
          constructor
          · show kq ∉ keyInsert (algo, hex) st.verified
            rw [mem_keyInsert]
            rintro (rfl | hx)
            · exact hkeyne q hq _ hkq rfl
            · exact h1 hx
          · show kq ∉ keyInsert (algo, hex) st.extracted
            rw [mem_keyInsert]
            rintro (rfl | hx)
            · exact hkeyne q hq _ hkq rfl
            · exact h2 hx)
        rfl
    refine ⟨st', b, ?_, htmp', ?_, ?_⟩
    · simp only [fetch_loop, step, Option.isSome_none, Bool.false_eq_true, if_false]
      rw [hloop]
      have hcnt : c.packages_fetched + 1 + rest.length
          = c.packages_fetched + (rest.length + 1) := by omega
      simp [hcnt]
    · intro kq
      rw [hiffv kq]
      show (kq ∈ keyInsert (algo, hex) st.verified ∨ _) ↔ _
      rw [mem_keyInsert]
      constructor
      · rintro ((rfl | hx) | ⟨q, hq, hkq⟩)
        · exact Or.inr ⟨p, List.mem_cons_self p rest, hk⟩
        · exact Or.inl hx
        · exact Or.inr ⟨q, List.mem_cons_of_mem p hq, hkq⟩
      · rintro (hx | ⟨q, hq, hkq⟩)
        · exact Or.inl (Or.inr hx)
        · rcases List.mem_cons.mp hq with rfl | hq'
          · rw [hk] at hkq
            injection hkq with h'
            exact Or.inl (Or.inl h'.symm)
          · exact Or.inr ⟨q, hq', hkq⟩
    · intro kq
      rw [hiffe kq]
      show (kq ∈ keyInsert (algo, hex) st.extracted ∨ _) ↔ _
      rw [mem_keyInsert]
      constructor
      · rintro ((rfl | hx) | ⟨q, hq, hkq⟩)
        · exact Or.inr ⟨p, List.mem_cons_self p rest, hk⟩
        · exact Or.inl hx
        · exact Or.inr ⟨q, List.mem_cons_of_mem p hq, hkq⟩
      · rintro (hx | ⟨q, hq, hkq⟩)
        · exact Or.inl (Or.inr hx)
        · rcases List.mem_cons.mp hq with rfl | hq'
          · rw [hk] at hkq
            injection hkq with h'
            exact Or.inl (Or.inl h'.symm)
          · exact Or.inr ⟨q, hq', hkq⟩

/-- Claim C3 counterexample: a lockfile with two entries carrying the same
integrity digest (`pkgA` and its nested duplicate `pkgA2`).  On an
initially-empty store the first run reports `packagesFetched = 1` and
`packagesCached = 1`, not `packagesFetched = N = 2, packagesCached = 0` as
the claim states. -/
theorem c3_counterexample :
    pkgA.integrity = pkgA2.integrity
    ∧ (fetch_loop envGood [pkgA, pkgA2] StoreState.empty
        FetchCounters.zero).2.2 = none
    ∧ (fetch_loop envGood [pkgA, pkgA2] StoreState.empty
        FetchCounters.zero).2.1.packages_fetched = 1
    ∧ (fetch_loop envGood [pkgA, pkgA2] StoreState.empty
        FetchCounters.zero).2.1.packages_cached = 1
    ∧ (fetch_loop envGood [pkgA, pkgA2] StoreState.empty
        FetchCounters.zero).2.1.packages_fetched ≠ [pkgA, pkgA2].length := by
  refine ⟨rfl, ?_, ?_, ?_, ?_⟩ <;> decide

/-- Claim C3 (amended): for a lockfile whose entries have pairwise-distinct
integrity keys and whose downloads hash correctly, the first fetch run from
an empty store reports `packagesFetched = N, packagesCached = 0`, the second
run reports `packagesFetched = 0, packagesCached = N` and leaves the store
state unchanged (hence byte-equivalent destinations); and — without any
distinctness assumption — every package whose `.verified` sentinel and
extraction marker both exist is recorded as cached, with no download, no
state change and no extraction. -/
theorem c3_fetch_idempotent :
    (∀ (env : FetchEnv) (pkgs : List ResolvedPackage),
      (∀ p ∈ pkgs, ∃ k, cas_key_from_integrity p.integrity = some k
        ∧ (k.1 = "sha512" → env.sha512_hex (env.body p.resolved_url) = k.2)) →
      pkgs.Pairwise (fun p q =>
        cas_key_from_integrity p.integrity ≠ cas_key_from_integrity q.integrity) →
      ∃ (st1 : StoreState) (b : Nat),
        fetch_loop env pkgs StoreState.empty FetchCounters.zero
          = (st1, ⟨pkgs.length, 0, b⟩, none)
        ∧ fetch_loop env pkgs st1 FetchCounters.zero
          = (st1, ⟨0, pkgs.length, 0⟩, none))
    ∧ (∀ (env : FetchEnv) (pkg : ResolvedPackage) (st : StoreState)
        (c : FetchCounters) (k : String × String),
        cas_key_from_integrity pkg.integrity = some k →
        k ∈ st.verified → k ∈ st.extracted →
        fetch_one env pkg st c
          = (st, { c with packages_cached := c.packages_cached + 1 }, none)) := by
  constructor
  · intro env pkgs hall hdist
    obtain ⟨st1, b, hloop, htmp1, hiffv, hiffe⟩ :=
      fetch_loop_fresh env pkgs StoreState.empty FetchCounters.zero hall hdist
        (by intro p hp k hk; exact ⟨by simp [StoreState.empty], by simp [StoreState.empty]⟩)
        rfl
    refine ⟨st1, b, ?_, ?_⟩
    · simpa [FetchCounters.zero] using hloop
    · have hcached : ∀ p ∈ pkgs, ∃ k, cas_key_from_integrity p.integrity = some k
          ∧ k ∈ st1.verified ∧ k ∈ st1.extracted := by
        intro p hp
        obtain ⟨k, hk, _⟩ := hall p hp
        exact ⟨k, hk, (hiffv k).mpr (Or.inr ⟨p, hp, hk⟩),
          (hiffe k).mpr (Or.inr ⟨p, hp, hk⟩)⟩
      have h2 := fetch_loop_cached env pkgs st1 FetchCounters.zero hcached
      simpa [FetchCounters.zero] using h2
  · intro env pkg st c k hk hv he
    exact fetch_one_cached env pkg st c k hk hv he

/-- Witness for C3 (amended): the single-package lockfile `[pkgA]` in the
matching-hash environment, and a cached `fetch_one` call on a store already
holding the key `("sha512", "ab")`. -/
theorem c3_fetch_idempotent_witness :
    (∃ (st1 : StoreState) (b : Nat),
      fetch_loop envGood [pkgA] StoreState.empty FetchCounters.zero
        = (st1, ⟨[pkgA].length, 0, b⟩, none)
      ∧ fetch_loop envGood [pkgA] st1 FetchCounters.zero
        = (st1, ⟨0, [pkgA].length, 0⟩, none))
    ∧ fetch_one envGood pkgA
        ⟨[("sha512", "ab")], [("sha512", "ab")], [("sha512", "ab")], []⟩
        FetchCounters.zero
      = (⟨[("sha512", "ab")], [("sha512", "ab")], [("sha512", "ab")], []⟩,
         { FetchCounters.zero with
            packages_cached := FetchCounters.zero.packages_cached + 1 }, none) := by
  constructor
  · refine c3_fetch_idempotent.1 envGood [pkgA] ?_ ?_
    · intro p hp
      have hp' : p = pkgA := by simpa using hp
      subst hp'
      exact ⟨("sha512", "ab"), by decide, fun _ => by decide⟩
    · simp
  · exact c3_fetch_idempotent.2 envGood pkgA _ FetchCounters.zero ("sha512", "ab")
      (by decide) (by decide) (by decide)

/-- Claim C1 counterexample: a tree with a single file of logical length 1
occupying 8 blocks (`physical_len = 4096`), inode identity `(1, 1)`: the
analyzer's `physical` counts 4096 — the physical length, not the content's
1 byte — and `logical = 1 ≠ 4096 + 0 = physical + shared`. -/
theorem c1_counterexample :
    (analyze_files [⟨1, 8, 1, 1⟩]).logical = 1
    ∧ (analyze_files [⟨1, 8, 1, 1⟩]).physical = 4096
    ∧ (analyze_files [⟨1, 8, 1, 1⟩]).shared = 0
    ∧ (analyze_files [⟨1, 8, 1, 1⟩]).logical
        ≠ (analyze_files [⟨1, 8, 1, 1⟩]).physical
          + (analyze_files [⟨1, 8, 1, 1⟩]).shared := by
  refine ⟨?_, ?_, ?_, ?_⟩ <;> decide

/-- Claim C1 (amended): for a file content installed `k ≥ 1` times under
one (non-zero) inode identity, the analyzer's `physical` counts the
content's **physical length** (`512 × blocks`, or the size when no blocks
are reported) exactly once and `shared` counts it exactly `k − 1` times —
removing those files from the walk lowers `physical` by exactly one copy and
`shared` by `k − 1` copies; and `logical = physical + shared` holds whenever
every file's physical length equals its logical size. -/
theorem c1_dedup_accounting :
    (∀ (files : List FileMeta) (id : Nat × Nat) (L k : Nat),
      id ≠ (0, 0) →
      (∀ f ∈ files, (f.dev, f.ino) = id → physical_len f = L) →
      files.countP (fun f => (f.dev, f.ino) == id) = k →
      0 < k →
      (analyze_files files).physical
          = (analyze_files (files.filter (fun f => !((f.dev, f.ino) == id)))).physical + L
        ∧ (analyze_files files).shared
          = (analyze_files (files.filter (fun f => !((f.dev, f.ino) == id)))).shared
            + (k - 1) * L)
    ∧ (∀ files : List FileMeta,
        (∀ f ∈ files, physical_len f = f.len) →
        (analyze_files files).logical
          = (analyze_files files).physical + (analyze_files files).shared) := by
  constructor
  · intro files id L k hid hL hcnt hpos
    subst hcnt
    exact goAgg_filter_of_notmem id L files [] (by simp) hid hL hpos
  · intro files hp
    exact analyze_go_logical files ⟨[], ScanAgg.zero⟩ (by simp [ScanAgg.zero]) hp

/-- Witness for C1 (amended): two hardlinked observations of one 4096-byte,
8-block file with identity `(5, 6)` (`k = 2`, `L = 4096`). -/
theorem c1_dedup_accounting_witness :
    ((analyze_files filesDup).physical
        = (analyze_files (filesDup.filter (fun f => !((f.dev, f.ino) == (5, 6))))).physical
          + 4096
      ∧ (analyze_files filesDup).shared
        = (analyze_files (filesDup.filter (fun f => !((f.dev, f.ino) == (5, 6))))).shared
          + (2 - 1) * 4096)
    ∧ (analyze_files filesDup).logical
        = (analyze_files filesDup).physical + (analyze_files filesDup).shared := by
  constructor
  · exact c1_dedup_accounting.1 filesDup (5, 6) 4096 2 (by decide) (by decide)
      (by decide) (by decide)
  · exact c1_dedup_accounting.2 filesDup (by decide)

end BetterNpm
